import Mathlib

/-!
A shallow embedding of the FairCoin mining/consensus core: the miner's
eligibility test, dynamic difficulty retry loop and fork choice
(`src/unnamed/part_000`, a `Miner` class) and the stake wallet
(`src/unnamed/part_001`, a `Wallet` class; an older variant lives in
`src/source/wallet.js`).

Modelling conventions:
* JS numbers are modelled exactly: amounts as `ℚ` (the code divides by
  1000.0), chain positions and thresholds as `ℤ`/`ℕ`.
* JS `throw` is modelled with `Except String`; where a method mutates
  state, the embedding returns the updated state explicitly.
* External collaborators that are not part of the core (the `Block`
  class, the signature provider, hashing) are modelled from the spec as
  fields or simple stand-in functions, marked `Modelled from the spec:`.
-/

namespace FairCoin

/-- `MINT_ELEGIBILITY_DIFFICULTY` from part_000 line 13: base number of
matching bits required for minting eligibility. -/
def MINT_ELEGIBILITY_DIFFICULTY : ℤ := 3

/-- `TIME_UNTIL_ELIGIBILITY_DECREASE` from part_000 line 12: milliseconds
between eligibility-difficulty decreases. -/
def TIME_UNTIL_ELIGIBILITY_DECREASE : ℤ := 30000

/-- One unspent transaction output as it appears in a ledger view's UTXO
index: `{address, amount, chainNum}`. -/
structure UTXO where
  address : String
  amount : ℚ
  chainNum : ℤ
  deriving Repr, DecidableEq

/-- A ledger view ("Block", external collaborator per spec section 6).
Only the fields the core reads are modelled.  `hashVal` stands for the
external block hash and `proofValid` for the external `verifyProof()`
result; both are Modelled from the spec: block.js is not part of the
core source. -/
structure Block where
  prevBlockHash : String
  chainLength : ℕ
  timestamp : ℤ
  utxos : List (String × List UTXO)
  hashVal : String
  proofValid : Bool
  deriving Repr, DecidableEq

/-! ### Eligibility bit matching (part_000 lines 238-260) -/

/-- JS `Number.prototype.toString(2)` for a nonnegative integer: the
minimal binary representation, `"0"` for zero (`Nat.toDigits 2`). -/
def jsToBinaryString (n : ℕ) : List Char := Nat.toDigits 2 n

/-- `text2Binary` (part_000 lines 238-242): map every character to the
binary representation of its character code, concatenate, and keep only
the first 16 characters. -/
def text2Binary (s : String) : List Char :=
  ((s.data.map fun c => jsToBinaryString c.toNat).flatten).take 16

/-- The counting loop inside `countMatchingBits` (part_000 lines
246-253): walk both strings in lockstep, counting matches and stopping
at the first mismatch. -/
def countLeadingMatches : List Char → List Char → ℕ
  | a :: as, b :: bs => if a = b then countLeadingMatches as bs + 1 else 0
  | _, _ => 0

/-- `countMatchingBits` (part_000 lines 244-254): throws when the two
strings have different lengths, otherwise returns the number of leading
matching characters. -/
def countMatchingBits (string1 string2 : List Char) : Except String ℕ :=
  if string1.length ≠ string2.length then
    .error "Mismatching string length in mint elegibility process"
  else
    .ok (countLeadingMatches string1 string2)

/-- `isEligibileToMint(miner, b, target)` (part_000 lines 256-260): the
miner is passed only for `miner.wallet.getEligibilityAddress()`, so the
embedding takes that eligibility fingerprint string directly. -/
def isEligibileToMint (eligibilityAddress : String) (b : Block) (target : ℤ) :
    Except String Bool :=
  let cbh := text2Binary b.prevBlockHash
  let pkh := text2Binary eligibilityAddress
  (countMatchingBits cbh pkh).map fun n => decide (target ≤ (n : ℤ))

/-! ### Stake wallet (part_001) -/

/-- A public/private key pair (external keypair provider).  `public` and
`private` are JS field names; Lean reserves `private`, so the fields are
spelled out. -/
structure Keypair where
  publicKey : String
  privateKey : String
  deriving Repr, DecidableEq

/-- Modelled from the spec: `utils.sign(privateKey, output)` of the
external signature provider, an opaque deterministic stand-in. -/
def sign (privateKey : String) (output : UTXO) : String :=
  privateKey ++ "#" ++ output.address

/-- One stored coin: the triple `{ output, txID, outputIndex }` kept in
the wallet's queue, plus the `pubKey`/`sig` fields the spend methods
attach in place (absent until a spend selects the coin). -/
structure Coin where
  output : UTXO
  txID : String
  outputIndex : ℕ
  pubKey : Option String := none
  sig : Option String := none
  deriving Repr, DecidableEq

/-- The wallet: a queue of coins (front = most recently added, since
`addUTXO` uses `unshift`) and an address → keypair map, modelled as an
association list. -/
structure Wallet where
  coins : List Coin
  addresses : List (String × Keypair)
  deriving Repr, DecidableEq

/-- JS `this.addresses[addr]`: association-list lookup. -/
def lookupAddress (addrs : List (String × Keypair)) (a : String) :
    Option Keypair :=
  (addrs.find? fun p => p.1 = a).map Prod.snd

/-- `hasKey(address)` (part_001 lines 261-263). -/
def Wallet.hasKey (w : Wallet) (address : String) : Bool :=
  (lookupAddress w.addresses address).isSome

/-- The `balance` getter (part_001 lines 43-45): sum of all locally
cached coin amounts. -/
def Wallet.balance (w : Wallet) : ℚ :=
  w.coins.foldl (fun acc c => acc + c.output.amount) 0

/-- `balanceOnChain(miner)` (part_001 lines 53-67): sum over the ledger
view's UTXO index of the amounts of owned entries confirmed by at least
one block (`chainNum < chainLength`).  The JS method receives the miner
and reads `miner.currentBlock`; the embedding takes the block. -/
def Wallet.balanceOnChain (w : Wallet) (block : Block) : ℚ :=
  (block.utxos.map Prod.snd).flatten.foldl
    (fun acc u =>
      if w.hasKey u.address ∧ u.chainNum < (block.chainLength : ℤ) then
        acc + u.amount
      else acc) 0

/-- Modelled from the spec: `Block.getAllAgedUTXOsBelongingTo(wallet)`
of the external block.js — the ledger view's "aged" UTXO set for a
wallet, i.e. owned entries excluding outputs minted in the still-open
candidate block (`chainNum < chainLength`). -/
def Block.getAllAgedUTXOsBelongingTo (b : Block) (w : Wallet) : List UTXO :=
  (b.utxos.map Prod.snd).flatten.filter
    fun u => w.hasKey u.address ∧ u.chainNum < (b.chainLength : ℤ)

/-- `addUTXO(utxo, txID, outputIndex)` (part_001 lines 78-90): throws
when the wallet holds no keypair for the UTXO's address, otherwise
unshifts the coin onto the queue.  The throw happens before any
mutation, so the error case returns the wallet unchanged. -/
def Wallet.addUTXO (w : Wallet) (utxo : UTXO) (txID : String)
    (outputIndex : ℕ) : Wallet × Option String :=
  if lookupAddress w.addresses utxo.address = none then
    (w, some ("Wallet does not have key for " ++ utxo.address))
  else
    ({ w with
        coins := { output := utxo, txID := txID, outputIndex := outputIndex }
          :: w.coins },
     none)

/-- The selection loop of `spendUTXOs` (part_001 lines 115-126): walk
the queue while the remaining amount is positive, sign and take each
coin.  Returns the selected inputs, the remaining (possibly negative)
amount, and the queue as left by the loop (the selected coins carry the
`pubKey`/`sig` fields the loop set on them in place). -/
def spendLoop (addrs : List (String × Keypair)) :
    List Coin → ℚ → Except String (List Coin × ℚ × List Coin)
  | [], amount => .ok ([], amount, [])
  | c :: rest, amount =>
    if 0 < amount then
      match lookupAddress addrs c.output.address with
      | none => .error "TypeError: no key pair for coin address"
      | some kp =>
        let c' := { c with
          pubKey := some kp.publicKey
          sig := some (sign kp.privateKey c.output) }
        match spendLoop addrs rest (amount - c.output.amount) with
        | .error e => .error e
        | .ok (needed, rem, rest') => .ok (c' :: needed, rem, c' :: rest')
    else
      .ok ([], amount, c :: rest)

/-- `spendUTXOs(amount)` (part_001 lines 108-130): greedy front-first
selection against the local balance; returns `{inputs, changeAmt}` and
the wallet as the call leaves it. -/
def Wallet.spendUTXOs (w : Wallet) (amount : ℚ) :
    Except String (List Coin × ℚ × Wallet) :=
  if w.balance < amount then
    .error "Insufficient funds"
  else
    match spendLoop w.addresses w.coins amount with
    | .error e => .error e
    | .ok (needed, rem, coins') => .ok (needed, -rem, { w with coins := coins' })

/-- The selection loop of `spendUTXOsFully` (part_001 lines 161-178):
like `spendLoop`, but a coin is taken only when its address appears in
`validAddresses` (the aged-UTXO addresses); other coins are skipped. -/
def spendFullyLoop (addrs : List (String × Keypair))
    (validAddresses : List String) :
    List Coin → ℚ → Except String (List Coin × ℚ × List Coin)
  | [], amount => .ok ([], amount, [])
  | c :: rest, amount =>
    if 0 < amount then
      if c.output.address ∈ validAddresses then
        match lookupAddress addrs c.output.address with
        | none => .error "TypeError: no key pair for coin address"
        | some kp =>
          let c' := { c with
            pubKey := some kp.publicKey
            sig := some (sign kp.privateKey c.output) }
          match spendFullyLoop addrs validAddresses rest
              (amount - c.output.amount) with
          | .error e => .error e
          | .ok (needed, rem, rest') => .ok (c' :: needed, rem, c' :: rest')
      else
        match spendFullyLoop addrs validAddresses rest amount with
        | .error e => .error e
        | .ok (needed, rem, rest') => .ok (needed, rem, c :: rest')
    else
      .ok ([], amount, c :: rest)

/-- The result of `spendUTXOsFully`: `{inputs, totalSpent}` plus the
wallet as the call leaves it. -/
structure SpendFullyResult where
  inputs : List Coin
  totalSpent : ℚ
  wallet : Wallet
  deriving Repr, DecidableEq

/-- `spendUTXOsFully(amount, miner)` (part_001 lines 149-182): checks
the requested amount against the local `balance`, restricts selection
to coins whose address is in the aged-UTXO set of `miner.currentBlock`,
and returns `{inputs, totalSpent = expected - remaining}`.  The JS
method receives the miner and reads `miner.currentBlock`; the embedding
takes the block. -/
def Wallet.spendUTXOsFully (w : Wallet) (amount : ℚ) (block : Block) :
    Except String SpendFullyResult :=
  let expected := amount
  if w.balance < amount then
    .error "Insufficient funds"
  else
    let validUTXOs := block.getAllAgedUTXOsBelongingTo w
    let validAddresses := validUTXOs.map UTXO.address
    match spendFullyLoop w.addresses validAddresses w.coins amount with
    | .error e => .error e
    | .ok (needed, rem, coins') =>
      .ok ⟨needed, expected - rem, { w with coins := coins' }⟩

/-- `coinAgeOf(utxo, block)` (part_001 lines 266-268):
`max(0, amount/1000 * (chainLength - chainNum - 2))`. -/
def coinAgeOf (utxo : UTXO) (block : Block) : ℚ :=
  max 0 (utxo.amount / 1000 * ((block.chainLength : ℚ) - (utxo.chainNum : ℚ) - 2))

/-- `getCoinAgeOfWalletOnChain(block)` (part_001 lines 223-230): sum the
coin-age of the wallet's aged UTXOs, floor the aggregate, clamp at 4. -/
def Wallet.getCoinAgeOfWalletOnChain (w : Wallet) (block : Block) : ℤ :=
  min 4 ⌊(block.getAllAgedUTXOsBelongingTo w).foldl
          (fun acc u => acc + coinAgeOf u block) 0⌋

/-! ### Mining engine (part_000) -/

/-- The eligibility branch of `startNewSearch` (part_000 lines 97-107)
for a fixed ledger view and fingerprint: `none` when the miner is
eligible (it transitions to mining), `some (t - 1)` when it is not (the
dynamic difficulty is decremented and a retry is scheduled). -/
def startNewSearchRetryStep (eligibilityAddress : String) (b : Block)
    (t : ℤ) : Except String (Option ℤ) :=
  (isEligibileToMint eligibilityAddress b t).map
    fun elig => if elig then none else some (t - 1)

/-- Number of failed retries of the eligibility branch before the miner
becomes eligible, for a fixed leading-match count `c` and a starting
threshold `t`: each failure lowers the threshold by one. -/
def retriesNeeded (c : ℕ) (t : ℤ) : ℕ :=
  if h : t ≤ (c : ℤ) then 0 else 1 + retriesNeeded c (t - 1)
termination_by t.toNat
decreasing_by
  simp only [not_le] at h
  omega

/-- The miner state read and written by `receiveBlock` (part_000 lines
190-211).  JS compares miners by object identity (`this !== miner`);
the embedding gives each miner a numeric identity. -/
structure MinerState where
  id : ℕ
  currentBlock : Block
  previousBlocks : List (String × Block)
  shouldStartNewBlock : Bool
  deriving Repr, DecidableEq

/-- What a `receiveBlock` call did: the state it left behind, whether it
returned the rejection signal `false`, and — when it restarted the
search — the `reuseRewardAddress` argument it passed to
`startNewSearch`. -/
structure ReceiveBlockResult where
  state : MinerState
  returnedFalse : Bool
  searchReuse : Option Bool
  deriving Repr, DecidableEq

/-- `isValidBlock(b, miner)` (part_000 lines 160-181): when a miner is
named, recompute the eligibility threshold adjusted for elapsed time
since the block's timestamp and throw when the miner fails the adjusted
test; then return the external proof check's verdict.  `Date.now()` is
passed in as `currentTime`; `Math.floor` of the ratio is `Int.fdiv`;
the miner argument is represented by its eligibility fingerprint. -/
def isValidBlock (currentTime : ℤ) (b : Block)
    (minerEligibilityAddress : Option String) : Except String Bool :=
  match minerEligibilityAddress with
  | some eligAddr =>
    let diff := currentTime - b.timestamp + 100
    let minMintingDifficulty :=
      MINT_ELEGIBILITY_DIFFICULTY - diff.fdiv TIME_UNTIL_ELIGIBILITY_DECREASE
    match isEligibileToMint eligAddr b minMintingDifficulty with
    | .error e => .error e
    | .ok false => .error "invalid proof. Miner is not allowed to mint"
    | .ok true => .ok b.proofValid
  | none => .ok b.proofValid

/-- `receiveBlock({block, miner})` (part_000 lines 190-211):
deserialize (modelled as the identity, serialization being external),
validate via `isValidBlock` — whose eligibility throw propagates to the
caller — return `false` on an invalid proof, cache the block when
unseen, and adopt it (switching `currentBlock` and restarting the
search with `reuseRewardAddress = true`) iff its chain length is at
least the local one and the sender is a different miner. -/
def receiveBlock (m : MinerState) (currentTime : ℤ) (b : Block)
    (senderId : ℕ) (senderEligibilityAddress : String) :
    Except String ReceiveBlockResult :=
  match isValidBlock currentTime b (some senderEligibilityAddress) with
  | .error e => .error e
  | .ok false => .ok ⟨m, true, none⟩
  | .ok true =>
    let m₁ :=
      if (m.previousBlocks.find? fun p => p.1 = b.hashVal) = none then
        { m with previousBlocks := (b.hashVal, b) :: m.previousBlocks }
      else m
    if m.currentBlock.chainLength ≤ b.chainLength ∧ m.id ≠ senderId then
      .ok ⟨{ m₁ with currentBlock := b, shouldStartNewBlock := true },
           false, some true⟩
    else
      .ok ⟨m₁, false, none⟩

/-! ### Invariants and views used by the theorems -/

/-- Every coin stored in the wallet's queue has a keypair registered for
its address. -/
def walletKeyInvariant (w : Wallet) : Prop :=
  ∀ c ∈ w.coins, (lookupAddress w.addresses c.output.address).isSome

/-- The part of a stored coin that the wallet's queue is responsible
for: the `{ output, txID, outputIndex }` triple.  The spend methods
attach `pubKey`/`sig` to selected coins in place, so the queue is
compared up to those transient signing fields. -/
def coinCore (c : Coin) : UTXO × String × ℕ :=
  (c.output, c.txID, c.outputIndex)

/-! ### Concrete sample data for witnesses and counterexamples -/

/-- A sample keypair. -/
def kpA : Keypair := ⟨"pubA", "privA"⟩

/-- A sample UTXO: address `"a1"`, amount 100, created at chain
position 0. -/
def utxoA : UTXO := ⟨"a1", 100, 0⟩

/-- A wallet with no coins and no keys. -/
def walletEmpty : Wallet := ⟨[], []⟩

/-- The coin holding `utxoA`, as stored by the queue. -/
def coinA : Coin := ⟨utxoA, "t1", 0, none, none⟩

/-- `coinA` after a spend method signed it. -/
def coinASigned : Coin := ⟨utxoA, "t1", 0, some "pubA", some "privA#a1"⟩

/-- A wallet owning `coinA` locally with the matching keypair. -/
def walletA : Wallet := ⟨[coinA], [("a1", kpA)]⟩

/-- A block whose UTXO index is empty (so every on-chain balance is 0
and the aged set of every wallet is empty). -/
def blockA : Block := ⟨"aaa", 1, 0, [], "hA", true⟩

/-- A block whose UTXO index confirms `utxoA` (chain length 1, so
`utxoA` is aged). -/
def blockB : Block := ⟨"aaa", 1, 0, [("t1", [utxoA])], "hB", true⟩

/-- A longer valid block, as received from a peer. -/
def blockC : Block := ⟨"aaa", 2, 0, [], "hC", true⟩

/-- A longer block whose external proof check fails. -/
def blockD : Block := ⟨"aaa", 2, 0, [], "hD", false⟩

/-- A miner at chain length 1 (its `currentBlock` is `blockA`). -/
def minerA : MinerState := ⟨0, blockA, [], false⟩

/-- What `receiveBlock minerA 0 blockC 1 "aaa"` produces: `blockC`
adopted, the search restarted with `reuseRewardAddress = true`. -/
def resultC : ReceiveBlockResult :=
  ⟨⟨0, blockC, [("hC", blockC)], true⟩, false, some true⟩

/-- What `receiveBlock minerA 0 blockD 1 "aaa"` produces: proof check
failed, rejection signal returned, state untouched. -/
def resultD : ReceiveBlockResult := ⟨minerA, true, none⟩

/-- What `walletA.spendUTXOsFully 50 blockB` produces: the single aged
coin selected and signed, overshooting the request. -/
def resultB : SpendFullyResult :=
  ⟨[coinASigned], 100, ⟨[coinASigned], [("a1", kpA)]⟩⟩

/-! ## Theorems -/

/-- Helper: `retriesNeeded` is the positive part of the gap between the
starting threshold and the leading-match count. -/
theorem retriesNeeded_eq (c : ℕ) (t : ℤ) :
    retriesNeeded c t = (t - c).toNat := by
  generalize hk : t.toNat = k
  induction k using Nat.strong_induction_on generalizing t with
  | _ k ih =>
    rw [retriesNeeded]
    split
    · omega
    · rename_i h
      rw [ih (t - 1).toNat (by omega) (t - 1) rfl]
      omega

/-- C1: eligibility determination — with the previous block's hash and
the wallet's eligibility fingerprint each projected to a 16-bit binary
string, `isEligibileToMint` returns exactly the comparison "leading
matching-bit count ≥ threshold", for every hash, fingerprint and
threshold value. -/
theorem isEligibileToMint_matches_bit_count (eligibilityAddress : String)
    (b : Block) (target : ℤ)
    (h₁ : (text2Binary b.prevBlockHash).length = 16)
    (h₂ : (text2Binary eligibilityAddress).length = 16) :
    isEligibileToMint eligibilityAddress b target =
      .ok (decide (target ≤ (countLeadingMatches (text2Binary b.prevBlockHash)
        (text2Binary eligibilityAddress) : ℤ))) := by
  simp [isEligibileToMint, countMatchingBits, h₁, h₂, Except.map]

/-- Witness for C1 at the hash `"aaa"` and fingerprint `"abc"` (12
leading bits match). -/
theorem isEligibileToMint_matches_bit_count_witness :
    (text2Binary blockA.prevBlockHash).length = 16 ∧
    (text2Binary "abc").length = 16 ∧
    isEligibileToMint "abc" blockA 3 =
      .ok (decide ((3 : ℤ) ≤ (countLeadingMatches
        (text2Binary blockA.prevBlockHash) (text2Binary "abc") : ℤ))) :=
  ⟨by decide, by decide,
   isEligibileToMint_matches_bit_count "abc" blockA 3 (by decide) (by decide)⟩

/-- C2: monotonic eligibility — for a fixed ledger view and fingerprint
whose bit-match count is `c`, every failed retry of the eligibility
branch of `startNewSearch` lowers the threshold by exactly 1, the
thresholds visited never drop below zero, and the miner is eligible
after at most `t0` retries from any starting threshold `t0` (in the
code `t0 = MINT_ELEGIBILITY_DIFFICULTY`). -/
theorem startNewSearch_retry_monotone (eligibilityAddress : String)
    (b : Block) (c : ℕ)
    (hc : countMatchingBits (text2Binary b.prevBlockHash)
        (text2Binary eligibilityAddress) = .ok c) (t0 : ℕ) :
    (∀ t : ℤ, startNewSearchRetryStep eligibilityAddress b t =
        .ok (if t ≤ (c : ℤ) then none else some (t - 1))) ∧
    retriesNeeded c t0 ≤ t0 ∧
    (∀ n : ℕ, n < retriesNeeded c t0 →
        startNewSearchRetryStep eligibilityAddress b ((t0 : ℤ) - n) =
          .ok (some ((t0 : ℤ) - n - 1))) ∧
    startNewSearchRetryStep eligibilityAddress b
        ((t0 : ℤ) - retriesNeeded c t0) = .ok none ∧
    (∀ n : ℕ, n ≤ retriesNeeded c t0 → 0 ≤ (t0 : ℤ) - n) := by
  have hstep : ∀ t : ℤ, startNewSearchRetryStep eligibilityAddress b t =
      .ok (if t ≤ (c : ℤ) then none else some (t - 1)) := by
    intro t
    simp only [startNewSearchRetryStep, isEligibileToMint, hc, Except.map]
    by_cases h : t ≤ (c : ℤ) <;> simp [h]
  have heq := retriesNeeded_eq c t0
  refine ⟨hstep, by omega, ?_, ?_, by omega⟩
  · intro n hn
    rw [hstep, if_neg (by omega)]
  · rw [hstep, if_pos (by omega)]

/-- Witness for C2: fingerprint `"SSS"` against hash `"aaa"` matches
only 1 leading bit, so from threshold 3 the miner fails twice and is
eligible at threshold 1 after `retriesNeeded 1 3 = 2` retries. -/
theorem startNewSearch_retry_monotone_witness :
    countMatchingBits (text2Binary blockA.prevBlockHash)
      (text2Binary "SSS") = .ok 1 ∧
    retriesNeeded 1 3 ≤ 3 ∧
    startNewSearchRetryStep "SSS" blockA ((3 : ℤ) - retriesNeeded 1 3) =
      .ok none :=
  ⟨rfl, (startNewSearch_retry_monotone "SSS" blockA 1 rfl 3).2.1,
   (startNewSearch_retry_monotone "SSS" blockA 1 rfl 3).2.2.2.1⟩

/-- C3: fork adoption rule — for every received block that passes
validation (the call returns without the rejection signal),
`receiveBlock` adopts the block as the new active ledger view, with a
search restart passing `reuseRewardAddress = true`, exactly when the
block's chain length is at least the local chain length and the sender
is not the local miner; ties favour the incoming block. -/
theorem receiveBlock_adoption_rule (m : MinerState) (currentTime : ℤ)
    (b : Block) (senderId : ℕ) (eligibilityAddress : String)
    (r : ReceiveBlockResult)
    (h : receiveBlock m currentTime b senderId eligibilityAddress = .ok r)
    (hacc : r.returnedFalse = false) :
    (r.searchReuse = some true ∧ r.state.currentBlock = b ∧
        r.state.shouldStartNewBlock = true) ↔
      (m.currentBlock.chainLength ≤ b.chainLength ∧ m.id ≠ senderId) := by
  unfold receiveBlock at h
  cases hv : isValidBlock currentTime b (some eligibilityAddress) with
  | error e => rw [hv] at h; cases h
  | ok verdict =>
    rw [hv] at h
    cases verdict with
    | false =>
      simp only at h
      cases h
      cases hacc
    | true =>
      simp only at h
      by_cases hcond :
          m.currentBlock.chainLength ≤ b.chainLength ∧ m.id ≠ senderId
      · rw [if_pos hcond] at h
        cases h
        simpa using hcond
      · rw [if_neg hcond] at h
        cases h
        simp [hcond]

/-- Witness for C3: `minerA` (chain length 1) receives the valid longer
`blockC` (chain length 2) from a different miner and adopts it, reusing
its reward address. -/
theorem receiveBlock_adoption_rule_witness :
    (resultC.searchReuse = some true ∧ resultC.state.currentBlock = blockC ∧
        resultC.state.shouldStartNewBlock = true) ↔
      (minerA.currentBlock.chainLength ≤ blockC.chainLength ∧
        minerA.id ≠ 1) :=
  receiveBlock_adoption_rule minerA 0 blockC 1 "aaa" resultC rfl rfl

/-- Counterexample to C4: when the sender fails the adjusted
eligibility test (fingerprint `"SSS"` matches only 1 leading bit of
hash `"aaa"`, below the adjusted threshold 3), `receiveBlock` does not
return the rejection signal `false` — the `isValidBlock` throw
propagates to the caller. -/
theorem receiveBlock_propagates_ineligible :
    receiveBlock minerA 0 blockC 1 "SSS" =
      .error "invalid proof. Miner is not allowed to mint" := rfl

/-- C4 (amended): when the external proof check rejects the block,
`receiveBlock` returns the rejection signal `false` with the miner
state untouched; but when the sender fails the adjusted eligibility
test, the exception thrown inside `isValidBlock` propagates out of
`receiveBlock` to its caller. -/
theorem receiveBlock_validation_failure_paths (m : MinerState)
    (currentTime : ℤ) (b : Block) (senderId : ℕ)
    (eligibilityAddress : String) :
    (∀ r, receiveBlock m currentTime b senderId eligibilityAddress = .ok r →
        r.returnedFalse = true → r.state = m ∧ r.searchReuse = none) ∧
    (isEligibileToMint eligibilityAddress b (MINT_ELEGIBILITY_DIFFICULTY -
        (currentTime - b.timestamp + 100).fdiv
          TIME_UNTIL_ELIGIBILITY_DECREASE) = .ok false →
      receiveBlock m currentTime b senderId eligibilityAddress =
        .error "invalid proof. Miner is not allowed to mint") := by
  constructor
  · intro r h hrej
    unfold receiveBlock at h
    cases hv : isValidBlock currentTime b (some eligibilityAddress) with
    | error e => rw [hv] at h; cases h
    | ok verdict =>
      rw [hv] at h
      cases verdict with
      | false => simp only at h; cases h; exact ⟨rfl, rfl⟩
      | true =>
        simp only at h
        split at h <;> cases h <;> cases hrej
  · intro helig
    simp only [receiveBlock, isValidBlock, helig]

/-- Witness for C4 (amended): `blockD` (proof check fails) is rejected
with the signal `false` and no state change, while an ineligible sender
makes `receiveBlock` propagate the exception. -/
theorem receiveBlock_validation_failure_paths_witness :
    (resultD.state = minerA ∧ resultD.searchReuse = none) ∧
    receiveBlock minerA 0 blockC 1 "SSS" =
      .error "invalid proof. Miner is not allowed to mint" :=
  ⟨(receiveBlock_validation_failure_paths minerA 0 blockD 1 "aaa").1
      resultD rfl rfl,
   (receiveBlock_validation_failure_paths minerA 0 blockC 1 "SSS").2 rfl⟩

/-- Helper: folding nonnegative per-UTXO coin ages onto a nonnegative
accumulator stays nonnegative. -/
theorem coinAge_foldl_nonneg (b : Block) (l : List UTXO) (acc : ℚ)
    (h : 0 ≤ acc) :
    0 ≤ l.foldl (fun acc u => acc + coinAgeOf u b) acc := by
  induction l generalizing acc with
  | nil => exact h
  | cons u l ih => exact ih _ (add_nonneg h (le_max_left 0 _))

/-- C5: coin-age clamp — for every wallet and ledger view,
`getCoinAgeOfWalletOnChain` lies in `[0, 4]` regardless of UTXO amounts
or ages, and it is exactly the floor of the sum of the per-UTXO
contributions `max(0, amount/1000 * (chainLength - chainNum - 2))`
clamped to a maximum of 4. -/
theorem getCoinAgeOfWalletOnChain_clamped (w : Wallet) (b : Block) :
    0 ≤ w.getCoinAgeOfWalletOnChain b ∧
    w.getCoinAgeOfWalletOnChain b ≤ 4 ∧
    w.getCoinAgeOfWalletOnChain b =
      min 4 ⌊(b.getAllAgedUTXOsBelongingTo w).foldl
        (fun acc u => acc + max 0 (u.amount / 1000 *
          ((b.chainLength : ℚ) - (u.chainNum : ℚ) - 2))) 0⌋ := by
  refine ⟨?_, min_le_left _ _, rfl⟩
  have hsum := coinAge_foldl_nonneg b (b.getAllAgedUTXOsBelongingTo w) 0 le_rfl
  have hfloor : (0 : ℤ) ≤ ⌊(b.getAllAgedUTXOsBelongingTo w).foldl
      (fun acc u => acc + coinAgeOf u b) 0⌋ := Int.floor_nonneg.mpr hsum
  exact le_min (by norm_num) hfloor

/-- C6 (amended): `spendUTXOsFully` throws `InsufficientFunds` exactly
against the wallet's local cached balance — so every wallet whose local
balance is below the requested 50 (in particular a fresh wallet, whose
on-chain balance is also 0) fails that way. -/
theorem spendUTXOsFully_insufficient_local_balance (w : Wallet)
    (amount : ℚ) (b : Block) (h : w.balance < amount) :
    w.spendUTXOsFully amount b = .error "Insufficient funds" := by
  simp only [Wallet.spendUTXOsFully, if_pos h]

/-- Witness for C6 (amended): the empty wallet, whose on-chain balance
on `blockA` is 0 as in the scenario, fails with `InsufficientFunds`. -/
theorem spendUTXOsFully_insufficient_local_balance_witness :
    walletEmpty.balance < 50 ∧ walletEmpty.balanceOnChain blockA = 0 ∧
    walletEmpty.spendUTXOsFully 50 blockA = .error "Insufficient funds" :=
  ⟨by norm_num [Wallet.balance, walletEmpty], rfl,
   spendUTXOsFully_insufficient_local_balance walletEmpty 50 blockA
     (by norm_num [Wallet.balance, walletEmpty])⟩

/-- Counterexample to C6 as stated: `walletA` has on-chain balance 0 on
`blockA` (the block's UTXO index is empty) but holds a local coin worth
100, so the check `amount > this.balance` does not fire —
`spendUTXOsFully 50` returns `totalSpent = 0` instead of throwing
`InsufficientFunds`. -/
theorem spendUTXOsFully_onchain_zero_not_insufficient :
    walletA.balanceOnChain blockA = 0 ∧
    walletA.spendUTXOsFully 50 blockA = .ok ⟨[], 0, walletA⟩ := by
  constructor
  · rfl
  · simp [Wallet.spendUTXOsFully, spendFullyLoop, Wallet.balance, walletA,
      blockA, Block.getAllAgedUTXOsBelongingTo, lookupAddress, Wallet.hasKey,
      coinA, utxoA, kpA]
    norm_num

/-- Helper: everything the `spendUTXOsFully` selection loop guarantees
on success — selected coins carry aged addresses, the queue keeps the
same coins in the same order, and the spent total is the sum of the
selected amounts. -/
theorem spendFullyLoop_spec (addrs : List (String × Keypair))
    (va : List String) :
    ∀ (coins : List Coin) (amount : ℚ) (needed : List Coin) (rem : ℚ)
      (rest' : List Coin),
      spendFullyLoop addrs va coins amount = .ok (needed, rem, rest') →
      (∀ c ∈ needed, c.output.address ∈ va) ∧
      rest'.map coinCore = coins.map coinCore ∧
      amount - rem = (needed.map fun c => c.output.amount).sum := by
  intro coins
  induction coins with
  | nil =>
    intro amount needed rem rest' h
    simp only [spendFullyLoop] at h
    obtain ⟨h1, h2, h3⟩ := by simpa using h
    subst h1; subst h2; subst h3
    simp
  | cons c0 rest ih =>
    intro amount needed rem rest' h
    by_cases hpos : 0 < amount
    · by_cases hin : c0.output.address ∈ va
      · cases hk : lookupAddress addrs c0.output.address with
        | none => simp [spendFullyLoop, hpos, hin, hk] at h
        | some kp =>
          cases hrec : spendFullyLoop addrs va rest
              (amount - c0.output.amount) with
          | error e => simp [spendFullyLoop, hpos, hin, hk, hrec] at h
          | ok trip =>
            obtain ⟨n', r', rest''⟩ := trip
            simp only [spendFullyLoop, if_pos hpos, if_pos hin, hk,
              hrec] at h
            obtain ⟨h1, h2, h3⟩ := by simpa using h
            subst h1; subst h2; subst h3
            obtain ⟨ha, hb, hsum⟩ := ih (amount - c0.output.amount)
              n' r' rest'' hrec
            refine ⟨?_, ?_, ?_⟩
            · intro c hcmem
              rcases List.mem_cons.mp hcmem with h' | h'
              · subst h'; exact hin
              · exact ha c h'
            · simp [coinCore, hb]
            · simp only [List.map_cons, List.sum_cons]
              linarith
      · cases hrec : spendFullyLoop addrs va rest amount with
        | error e => simp [spendFullyLoop, hpos, hin, hrec] at h
        | ok trip =>
          obtain ⟨n', r', rest''⟩ := trip
          simp only [spendFullyLoop, if_pos hpos, if_neg hin, hrec] at h
          obtain ⟨h1, h2, h3⟩ := by simpa using h
          subst h1; subst h2; subst h3
          obtain ⟨ha, hb, hsum⟩ := ih amount n' r' rest'' hrec
          exact ⟨ha, by simp [coinCore, hb], hsum⟩
    · simp only [spendFullyLoop, if_neg hpos] at h
      obtain ⟨h1, h2, h3⟩ := by simpa using h
      subst h1; subst h2; subst h3
      simp

/-- Helper: the `spendUTXOs` selection loop keeps the queue's coins in
the same order on success. -/
theorem spendLoop_preserves_queue (addrs : List (String × Keypair)) :
    ∀ (coins : List Coin) (amount : ℚ) (needed : List Coin) (rem : ℚ)
      (rest' : List Coin),
      spendLoop addrs coins amount = .ok (needed, rem, rest') →
      rest'.map coinCore = coins.map coinCore := by
  intro coins
  induction coins with
  | nil =>
    intro amount needed rem rest' h
    obtain ⟨h1, h2, h3⟩ := by simpa [spendLoop] using h
    subst h3
    rfl
  | cons c0 rest ih =>
    intro amount needed rem rest' h
    by_cases hpos : 0 < amount
    · cases hk : lookupAddress addrs c0.output.address with
      | none => simp [spendLoop, hpos, hk] at h
      | some kp =>
        cases hrec : spendLoop addrs rest (amount - c0.output.amount) with
        | error e => simp [spendLoop, hpos, hk, hrec] at h
        | ok trip =>
          obtain ⟨n', r', rest''⟩ := trip
          simp only [spendLoop, if_pos hpos, hk, hrec] at h
          obtain ⟨h1, h2, h3⟩ := by simpa using h
          subst h1; subst h2; subst h3
          simp [coinCore, ih (amount - c0.output.amount) n' r' rest'' hrec]
    · simp only [spendLoop, if_neg hpos] at h
      obtain ⟨h1, h2, h3⟩ := by simpa using h
      subst h1; subst h2; subst h3
      rfl

/-- C7: aged-selection safety — every coin in the inputs returned by a
non-throwing `spendUTXOsFully` call has its address in the ledger
view's aged-UTXO set for the wallet at call time. -/
theorem spendUTXOsFully_aged_selection (w : Wallet) (amount : ℚ)
    (b : Block) (r : SpendFullyResult)
    (h : w.spendUTXOsFully amount b = .ok r) :
    ∀ c ∈ r.inputs, c.output.address ∈
      (b.getAllAgedUTXOsBelongingTo w).map UTXO.address := by
  simp only [Wallet.spendUTXOsFully] at h
  split at h
  · cases h
  · cases hloop : spendFullyLoop w.addresses
        ((b.getAllAgedUTXOsBelongingTo w).map UTXO.address) w.coins
        amount with
    | error e => rw [hloop] at h; cases h
    | ok trip =>
      obtain ⟨needed, rem, coins'⟩ := trip
      rw [hloop] at h
      cases h
      exact (spendFullyLoop_spec w.addresses _ w.coins amount needed rem
        coins' hloop).1

/-- Witness for C7: the one coin selected from `walletA` on `blockB`
has its address among `blockB`'s aged-UTXO addresses for `walletA`. -/
theorem spendUTXOsFully_aged_selection_witness :
    coinASigned.output.address ∈
      ((blockB.getAllAgedUTXOsBelongingTo walletA).map UTXO.address) :=
  spendUTXOsFully_aged_selection walletA 50 blockB resultB
    (by simp [Wallet.spendUTXOsFully, spendFullyLoop, Wallet.balance,
          walletA, blockB, Block.getAllAgedUTXOsBelongingTo, lookupAddress,
          Wallet.hasKey, coinA, coinASigned, utxoA, kpA, sign, resultB]
        norm_num)
    coinASigned (by simp [resultB])

/-- C8: `addUTXO` rejects with `MissingKeyError` exactly when the
incoming UTXO's address has no registered keypair; on rejection the
coin queue is unchanged; consequently a wallet in which every stored
coin's address has a key keeps that invariant across `addUTXO`. -/
theorem addUTXO_missing_key_spec (w : Wallet) (u : UTXO) (txID : String)
    (outputIndex : ℕ) :
    ((w.addUTXO u txID outputIndex).2.isSome ↔
        lookupAddress w.addresses u.address = none) ∧
    ((w.addUTXO u txID outputIndex).2.isSome →
        (w.addUTXO u txID outputIndex).1 = w) ∧
    (walletKeyInvariant w →
        walletKeyInvariant (w.addUTXO u txID outputIndex).1) := by
  by_cases hk : lookupAddress w.addresses u.address = none
  · simp [Wallet.addUTXO, hk]
  · refine ⟨by simp [Wallet.addUTXO, hk], by simp [Wallet.addUTXO, hk], ?_⟩
    intro hinv c hc
    simp only [Wallet.addUTXO, if_neg hk] at hc ⊢
    rcases List.mem_cons.mp hc with h' | h'
    · subst h'
      simpa [Option.isSome_iff_ne_none] using hk
    · exact hinv c h'

/-- Witness for C8: a wallet with no keys rejects `utxoA` leaving its
queue unchanged, and `walletA` (which owns the key) keeps the
every-coin-has-a-key invariant after adding `utxoA` again. -/
theorem addUTXO_missing_key_spec_witness :
    ((walletEmpty.addUTXO utxoA "t1" 0).2.isSome ↔
        lookupAddress walletEmpty.addresses utxoA.address = none) ∧
    (walletEmpty.addUTXO utxoA "t1" 0).1 = walletEmpty ∧
    walletKeyInvariant (walletA.addUTXO utxoA "t2" 1).1 :=
  ⟨(addUTXO_missing_key_spec walletEmpty utxoA "t1" 0).1,
   (addUTXO_missing_key_spec walletEmpty utxoA "t1" 0).2.1 rfl,
   (addUTXO_missing_key_spec walletA utxoA "t2" 1).2.2
     (by intro c hc
         simp only [walletA, coinA, utxoA] at hc
         simp only [List.mem_singleton] at hc
         subst hc
         rfl)⟩

/-- C9: frame property of spending — a non-throwing `spendUTXOs` or
`spendUTXOsFully` call removes no coin from the wallet's queue: the
queue holds the same stored coins (`{output, txID, outputIndex}`
triples, the in-place `pubKey`/`sig` signing annotations aside) in the
same order afterwards. -/
theorem spend_functions_frame (w : Wallet) (amount : ℚ) (b : Block) :
    (∀ needed chg w', w.spendUTXOs amount = .ok (needed, chg, w') →
        w'.coins.map coinCore = w.coins.map coinCore) ∧
    (∀ r : SpendFullyResult, w.spendUTXOsFully amount b = .ok r →
        r.wallet.coins.map coinCore = w.coins.map coinCore) := by
  constructor
  · intro needed chg w' h
    simp only [Wallet.spendUTXOs] at h
    split at h
    · cases h
    · cases hloop : spendLoop w.addresses w.coins amount with
      | error e => rw [hloop] at h; cases h
      | ok trip =>
        obtain ⟨n', r', coins'⟩ := trip
        rw [hloop] at h
        simp only [Except.ok.injEq, Prod.mk.injEq] at h
        obtain ⟨h1, h2, h3⟩ := h
        subst h3
        simpa using spendLoop_preserves_queue w.addresses w.coins amount
          n' r' coins' hloop
  · intro r h
    simp only [Wallet.spendUTXOsFully] at h
    split at h
    · cases h
    · cases hloop : spendFullyLoop w.addresses
          ((b.getAllAgedUTXOsBelongingTo w).map UTXO.address) w.coins
          amount with
      | error e => rw [hloop] at h; cases h
      | ok trip =>
        obtain ⟨n', r', coins'⟩ := trip
        rw [hloop] at h
        cases h
        exact (spendFullyLoop_spec w.addresses _ w.coins amount n' r'
          coins' hloop).2.1

/-- Witness for C9: both spend calls on `walletA` leave its queue with
the same stored coin. -/
theorem spend_functions_frame_witness :
    ([coinASigned].map coinCore = walletA.coins.map coinCore) ∧
    (resultB.wallet.coins.map coinCore = walletA.coins.map coinCore) :=
  ⟨(spend_functions_frame walletA 50 blockB).1 [coinASigned] 50
     ⟨[coinASigned], [("a1", kpA)]⟩
     (by simp [Wallet.spendUTXOs, spendLoop, Wallet.balance, walletA,
           lookupAddress, coinA, coinASigned, utxoA, kpA, sign]
         norm_num),
   (spend_functions_frame walletA 50 blockB).2 resultB
     (by simp [Wallet.spendUTXOsFully, spendFullyLoop, Wallet.balance,
           walletA, blockB, Block.getAllAgedUTXOsBelongingTo, lookupAddress,
           Wallet.hasKey, coinA, coinASigned, utxoA, kpA, sign, resultB]
         norm_num)⟩

/-- C10: for every non-throwing `spendUTXOsFully` call, the returned
`totalSpent` is the sum of the returned inputs' amounts; in particular
when the last selected coin overshoots the remaining requested amount,
`totalSpent` strictly exceeds the request. -/
theorem spendUTXOsFully_totalSpent_eq_sum (w : Wallet) (amount : ℚ)
    (b : Block) (r : SpendFullyResult)
    (h : w.spendUTXOsFully amount b = .ok r) :
    r.totalSpent = (r.inputs.map fun c => c.output.amount).sum ∧
    (∀ front lastCoin, r.inputs = front ++ [lastCoin] →
        amount - (front.map fun c => c.output.amount).sum <
          lastCoin.output.amount →
        amount < r.totalSpent) := by
  have hts : r.totalSpent =
      (r.inputs.map fun c => c.output.amount).sum := by
    simp only [Wallet.spendUTXOsFully] at h
    split at h
    · cases h
    · cases hloop : spendFullyLoop w.addresses
          ((b.getAllAgedUTXOsBelongingTo w).map UTXO.address) w.coins
          amount with
      | error e => rw [hloop] at h; cases h
      | ok trip =>
        obtain ⟨n', rem', coins'⟩ := trip
        rw [hloop] at h
        cases h
        exact (spendFullyLoop_spec w.addresses _ w.coins amount n' rem'
          coins' hloop).2.2
  refine ⟨hts, ?_⟩
  intro front lastCoin hsplit hover
  rw [hts, hsplit]
  simp only [List.map_append, List.sum_append, List.map_cons,
    List.map_nil, List.sum_cons, List.sum_nil]
  linarith

/-- Witness for C10: the single selected coin's amount 100 overshoots
the request of 50, and `totalSpent = 100 > 50`. -/
theorem spendUTXOsFully_totalSpent_eq_sum_witness :
    resultB.totalSpent =
      (resultB.inputs.map fun c => c.output.amount).sum ∧
    (50 : ℚ) < resultB.totalSpent :=
  ⟨(spendUTXOsFully_totalSpent_eq_sum walletA 50 blockB resultB
      (by simp [Wallet.spendUTXOsFully, spendFullyLoop, Wallet.balance,
            walletA, blockB, Block.getAllAgedUTXOsBelongingTo, lookupAddress,
            Wallet.hasKey, coinA, coinASigned, utxoA, kpA, sign, resultB]
          norm_num)).1,
   (spendUTXOsFully_totalSpent_eq_sum walletA 50 blockB resultB
      (by simp [Wallet.spendUTXOsFully, spendFullyLoop, Wallet.balance,
            walletA, blockB, Block.getAllAgedUTXOsBelongingTo, lookupAddress,
            Wallet.hasKey, coinA, coinASigned, utxoA, kpA, sign, resultB]
          norm_num)).2 [] coinASigned (by simp [resultB])
     (by norm_num [coinASigned, utxoA])⟩

end FairCoin
